import Mathlib

/-!
# Verification of the FHMM combination/decoding core of `nilmtk`

Shallow embedding of `nilmtk/disaggregate/fhmm_exact.py`: the state
canonicalizer (`return_sorting_mapping`, `sort_startprob`, `sort_covars`,
`sort_transition_matrix`, `sort_learnt_parameters`), the joint model builder
(`compute_pi_fhmm`, `compute_A_fhmm`, `compute_means_fhmm`,
`create_combined_hmm`), the state unmixer (`decode_hmm`), and the chunk
policy of the disaggregation driver.  Real-valued model parameters are
embedded as rationals; machine floats on the inputs involved are exact for
the algebraic identities proved here.  Python lists / numpy 1-D arrays are
`List ℚ`, matrices are `List (List ℚ)` (lists of rows), and out-of-range
indexing (never exercised under the stated shape hypotheses) is modelled
with `List.getD`.
-/

namespace FHMMSpec

/-! ## State canonicalizer -/

/-- First index of `v` in `l` (`np.where(v == means)[0][0]`); `l.length`
when absent (absence would raise in the source and never occurs here). -/
def firstIndexOf (v : ℚ) (l : List ℚ) : Nat :=
  l.findIdx (fun x => x = v)

/-- Embedding of `return_sorting_mapping(means)`: for each position `i` of the ascending
sort of `means`, the first index in the original `means` holding that
value. -/
def return_sorting_mapping (means : List ℚ) : List Nat :=
  (List.insertionSort (· ≤ ·) means).map (fun v => firstIndexOf v means)

/-- Embedding of `sort_startprob(mapping, startprob)`: `new_startprob[i] = startprob[mapping[i]]`
for `i < len(startprob)`. -/
def sort_startprob (mapping : List Nat) (startprob : List ℚ) : List ℚ :=
  (List.range startprob.length).map
    (fun i => startprob.getD (mapping.getD i 0) 0)

/-- Embedding of `sort_covars(mapping, covars)`: `new_covars[i] = covars[mapping[i]]`. -/
def sort_covars (mapping : List Nat) (covars : List ℚ) : List ℚ :=
  (List.range covars.length).map
    (fun i => covars.getD (mapping.getD i 0) 0)

/-- Embedding of `sort_transition_matrix(mapping, A)`:
`A_new[i, j] = A[mapping[i], mapping[j]]` for `i, j < len(A)`. -/
def sort_transition_matrix (mapping : List Nat) (A : List (List ℚ)) :
    List (List ℚ) :=
  (List.range A.length).map (fun i =>
    (List.range A.length).map (fun j =>
      (A.getD (mapping.getD i 0) []).getD (mapping.getD j 0) 0))

/-- The four permuted parameter arrays returned by `sort_learnt_parameters`. -/
structure SortedParams where
  startprob : List ℚ
  means : List ℚ
  covars : List ℚ
  transmat : List (List ℚ)
deriving Repr, DecidableEq

/-- Embedding of `sort_learnt_parameters(startprob, means, covars, transmat)`. -/
def sort_learnt_parameters (startprob means covars : List ℚ)
    (transmat : List (List ℚ)) : SortedParams :=
  let mapping := return_sorting_mapping means
  { startprob := sort_startprob mapping startprob
  , means := List.insertionSort (· ≤ ·) means
  , covars := sort_covars mapping covars
  , transmat := sort_transition_matrix mapping transmat }

/-! ## Joint model builder -/

/-- Kronecker product of two vectors (`np.kron` on 1-D arrays). -/
def kron_vec (a b : List ℚ) : List ℚ :=
  a.flatMap (fun x => b.map (fun y => x * y))

/-- Kronecker product of two matrices (`np.kron` on 2-D arrays):
row `i₁*p + i₂` is `kron_vec A[i₁] B[i₂]`. -/
def kron_mat (A B : List (List ℚ)) : List (List ℚ) :=
  A.flatMap (fun ra => B.map (fun rb => kron_vec ra rb))

/-- Embedding of `compute_pi_fhmm(list_pi)`: left fold of `np.kron` starting from the
first prior (the source indexes `list_pi[0]` and would raise on `[]`). -/
def compute_pi_fhmm : List (List ℚ) → List ℚ
  | [] => []
  | p :: rest => rest.foldl kron_vec p

/-- Embedding of `compute_A_fhmm(list_A)`: left fold of `np.kron` starting from the first
transition matrix. -/
def compute_A_fhmm : List (List (List ℚ)) → List (List ℚ)
  | [] => []
  | A :: rest => rest.foldl kron_mat A

/-- Embedding of `itertools.product(*list_means)`: Cartesian product tuples, first list
varying slowest. -/
def cartProd : List (List ℚ) → List (List ℚ)
  | [] => [[]]
  | l :: rest => l.flatMap (fun x => (cartProd rest).map (fun t => x :: t))

/-- Embedding of `compute_means_fhmm(list_means)` (the means vector; the source reshapes
it to a column and pairs it with a constant covariance). -/
def compute_means_fhmm (list_means : List (List ℚ)) : List ℚ :=
  (cartProd list_means).map (fun t => t.sum)

/-- One per-appliance HMM, as consumed by `create_combined_hmm`. -/
structure ApplianceHMM where
  startprob : List ℚ
  means : List ℚ
  covars : List ℚ
  transmat : List (List ℚ)
deriving Repr, DecidableEq

/-- Shape invariant of an `ApplianceHMM` with `k` states. -/
def ValidHMM (m : ApplianceHMM) : Prop :=
  m.startprob.length = m.means.length ∧
  m.covars.length = m.means.length ∧
  m.transmat.length = m.means.length ∧
  ∀ row ∈ m.transmat, row.length = m.means.length

/-- The combined (joint) model assembled by `create_combined_hmm`. -/
structure JointHMM where
  startprob : List ℚ
  transmat : List (List ℚ)
  means : List ℚ
deriving Repr, DecidableEq

/-- Embedding of `create_combined_hmm(model)`: Kronecker-combined prior and transition,
Cartesian-sum means, over the ordered collection of appliance models. -/
def create_combined_hmm (models : List ApplianceHMM) : JointHMM :=
  { startprob := compute_pi_fhmm (models.map (fun m => m.startprob))
  , transmat := compute_A_fhmm (models.map (fun m => m.transmat))
  , means := compute_means_fhmm (models.map (fun m => m.means)) }

/-! ## State unmixer (`decode_hmm`) -/

/-- Embedding of `total_num_combinations`: running product of the centroid-list lengths,
accumulated exactly as the source's loop does. -/
def total_num_combinations (centroids : List (List ℚ)) : Nat :=
  centroids.foldl (fun acc c => acc * c.length) 1

/-- The inner loop of `decode_hmm` for one joint state `s`: walking the
appliance list in order, `factor` is divided by each appliance's state
count, the local state is `⌊s / factor⌋ % k_i`, and the power is the
centroid at that local state.  (The source's `int(states[i]) / factor` is
Python-3 float division; for `s, factor : ℕ`, `factor ≥ 1`, truncating
`(s / factor) mod k` computed exactly equals `(s / factor) % k` in integer
arithmetic, which is what the assignment into the integer state array
stores.) -/
def decode_one : List (List ℚ) → Nat → Nat → List (Nat × ℚ)
  | [], _, _ => []
  | c :: rest, factor, s =>
    let factor2 := factor / c.length
    let st := (s / factor2) % c.length
    (st, c.getD st 0) :: decode_one rest factor2 s

/-- Embedding of `decode_hmm(length_sequence, centroids, appliance_list, states)`: for
each time step, the per-appliance (local state, power) pairs, appliances in
list order. -/
def decode_hmm (centroids : List (List ℚ)) (states : List Nat) :
    List (List (Nat × ℚ)) :=
  states.map (fun s => decode_one centroids (total_num_combinations centroids) s)

/-- Mixed-radix recombination with the first appliance most significant:
`s = Σ dᵢ · Π_{j>i} k_j` (the encoding the spec's §4.2 enumeration uses,
which `decode_hmm` must invert). -/
def encode_mixed_radix : List Nat → List Nat → Nat
  | _, [] => 0
  | [], _ :: _ => 0
  | _ :: ks, d :: ds => d * ks.prod + encode_mixed_radix ks ds

/-! ## Disaggregation driver chunk policy -/

/-- Embedding of `FHMM.MIN_CHUNK_LENGTH`. -/
def MIN_CHUNK_LENGTH : Nat := 100

/-- Embedding of `Series.dropna()`: a chunk with possibly-missing readings keeps only
the present ones. -/
def dropna (chunk : List (Option ℚ)) : List ℚ :=
  chunk.filterMap id

/-- Embedding of `FHMM.disaggregate_chunk(test_mains)`: drop missing values, run the
joint-model decoder (`self.model.predict`, an external hmmlearn Viterbi
routine passed in here as `predict`), unmix every decoded joint state, and
emit one output row of per-appliance powers per observation. -/
def disaggregate_chunk (predict : List ℚ → List Nat)
    (centroids : List (List ℚ)) (test_mains : List (Option ℚ)) :
    List (List ℚ) :=
  let cleaned := dropna test_mains
  let learnt_states := predict cleaned
  (decode_hmm centroids learnt_states).map (fun row => row.map (fun p => p.2))

/-- The per-chunk body of `FHMM.disaggregate`: a chunk shorter than
`MIN_CHUNK_LENGTH` is skipped (`continue`) and contributes no output rows;
otherwise the chunk is disaggregated. -/
def process_chunk (predict : List ℚ → List Nat)
    (centroids : List (List ℚ)) (chunk : List (Option ℚ)) : List (List ℚ) :=
  if chunk.length < MIN_CHUNK_LENGTH then []
  else disaggregate_chunk predict centroids chunk

/-- Modelled from the spec: the Sequence Decoder (`GaussianHMM.predict`
from hmmlearn, an external collaborator not in this repository) returns
"the length-T most-likely joint-state-index sequence" for a length-T
observation sequence.  Only this length contract is used. -/
def PredictLengthContract (predict : List ℚ → List Nat) : Prop :=
  ∀ xs : List ℚ, (predict xs).length = xs.length

/-- An `r × c` matrix as a list of rows. -/
def MatrixShape (A : List (List ℚ)) (r c : Nat) : Prop :=
  A.length = r ∧ ∀ row ∈ A, row.length = c

/-- Every row of a matrix sums to one. -/
def RowStochastic (A : List (List ℚ)) : Prop :=
  ∀ row ∈ A, row.sum = 1

/-- Predicate: `mapping` is a permutation of the state indices `0 .. k-1`. -/
def IsPermutationOfRange (mapping : List Nat) (k : Nat) : Prop :=
  List.Perm mapping (List.range k)

/-! ## Helper lemmas -/

lemma foldl_mul_len (cs : List (List ℚ)) :
    ∀ a : Nat, cs.foldl (fun acc c => acc * c.length) a
      = a * (cs.map List.length).prod := by
  induction cs with
  | nil => intro a; simp
  | cons c rest ih =>
      intro a
      rw [List.foldl_cons, ih, List.map_cons, List.prod_cons, Nat.mul_assoc]

/-- The running product accumulated by `decode_hmm` is the product of the
state counts. -/
lemma total_num_combinations_eq (cs : List (List ℚ)) :
    total_num_combinations cs = (cs.map List.length).prod := by
  rw [total_num_combinations, foldl_mul_len, Nat.one_mul]

lemma prod_len_pos {cs : List (List ℚ)} (hk : ∀ c ∈ cs, 1 ≤ c.length) :
    1 ≤ (cs.map List.length).prod := by
  induction cs with
  | nil => simp
  | cons c rest ih =>
      rw [List.map_cons, List.prod_cons]
      have h1 : 1 ≤ c.length := hk c (List.mem_cons_self c rest)
      have h2 : 1 ≤ (rest.map List.length).prod :=
        ih (fun x hx => hk x (List.mem_cons_of_mem c hx))
      exact Nat.one_le_iff_ne_zero.mpr (Nat.mul_ne_zero (by omega) (by omega))

/-- Unmixing then recombining gives the joint index modulo the total
state-count product. -/
lemma encode_decode_mod (cs : List (List ℚ)) (hk : ∀ c ∈ cs, 1 ≤ c.length)
    (s : Nat) :
    encode_mixed_radix (cs.map List.length)
      ((decode_one cs ((cs.map List.length).prod) s).map Prod.fst)
      = s % (cs.map List.length).prod := by
  induction cs with
  | nil => simp [decode_one, encode_mixed_radix, Nat.mod_one]
  | cons c rest ih =>
      have hkc : 1 ≤ c.length := hk c (List.mem_cons_self c rest)
      have hkr : ∀ x ∈ rest, 1 ≤ x.length :=
        fun x hx => hk x (List.mem_cons_of_mem c hx)
      have hdiv : c.length * (rest.map List.length).prod / c.length
          = (rest.map List.length).prod :=
        Nat.mul_div_cancel_left _ (by omega)
      simp only [List.map_cons, List.prod_cons, decode_one, hdiv,
        encode_mixed_radix, ih hkr]
      rw [Nat.mul_comm c.length (rest.map List.length).prod, Nat.mod_mul,
        Nat.mul_comm, Nat.add_comm]

/-- Lemma: `decode_hmm`, called with the total combination count, reads only the
joint index modulo that count. -/
lemma decode_one_mod :
    ∀ (cs : List (List ℚ)) (s : Nat), (∀ c ∈ cs, 1 ≤ c.length) →
    decode_one cs ((cs.map List.length).prod) s
      = decode_one cs ((cs.map List.length).prod)
          (s % (cs.map List.length).prod) := by
  intro cs
  induction cs with
  | nil => intro s hk; simp [decode_one]
  | cons c rest ih =>
      intro s hk
      have hkc : 1 ≤ c.length := hk c (List.mem_cons_self c rest)
      have hkr : ∀ x ∈ rest, 1 ≤ x.length :=
        fun x hx => hk x (List.mem_cons_of_mem c hx)
      have hdiv : c.length * (rest.map List.length).prod / c.length
          = (rest.map List.length).prod :=
        Nat.mul_div_cancel_left _ (by omega)
      simp only [List.map_cons, List.prod_cons, decode_one, hdiv]
      have hdigit : s % (c.length * (rest.map List.length).prod)
          / (rest.map List.length).prod % c.length
          = s / (rest.map List.length).prod % c.length := by
        rw [Nat.mul_comm c.length (rest.map List.length).prod,
          Nat.mod_mul_right_div_self, Nat.mod_mod_of_dvd _ (dvd_refl _)]
      have htail : decode_one rest (rest.map List.length).prod s
          = decode_one rest (rest.map List.length).prod
              (s % (c.length * (rest.map List.length).prod)) := by
        rw [ih s hkr, ih (s % (c.length * (rest.map List.length).prod)) hkr,
          Nat.mod_mod_of_dvd s (dvd_mul_left _ _)]
      rw [hdigit, htail]

lemma flatMap_const_length {α β : Type} (l : List α) (f : α → List β) (P : Nat)
    (hf : ∀ x ∈ l, (f x).length = P) : (l.flatMap f).length = l.length * P := by
  induction l with
  | nil => simp
  | cons x xs ih =>
      rw [List.flatMap_cons, List.length_append, hf x (List.mem_cons_self x xs),
        ih (fun y hy => hf y (List.mem_cons_of_mem x hy)), List.length_cons]
      ring

lemma flatMap_getD {α β : Type} :
    ∀ (l : List α) (s : Nat) (f : α → List β) (P : Nat) (d : β) (d2 : α),
      1 ≤ P → (∀ x ∈ l, (f x).length = P) → s < l.length * P →
      (l.flatMap f).getD s d = (f (l.getD (s / P) d2)).getD (s % P) d := by
  intro l
  induction l with
  | nil => intro s f P d d2 hP hf hs; simp at hs
  | cons x xs ih =>
      intro s f P d d2 hP hf hs
      rw [List.flatMap_cons]
      by_cases hsP : s < P
      · rw [List.getD_append _ _ _ _
            (by rw [hf x (List.mem_cons_self x xs)]; exact hsP),
          Nat.div_eq_of_lt hsP, Nat.mod_eq_of_lt hsP, List.getD_cons_zero]
      · push_neg at hsP
        obtain ⟨t, rfl⟩ : ∃ t, s = P + t := ⟨s - P, by omega⟩
        rw [List.getD_append_right _ _ _ _
            (by rw [hf x (List.mem_cons_self x xs)]; omega),
          hf x (List.mem_cons_self x xs)]
        have h1 : P + t - P = t := by omega
        have h2 : (P + t) / P = t / P + 1 := by
          rw [Nat.add_comm]; exact Nat.add_div_right t (by omega)
        have h3 : (P + t) % P = t % P := Nat.add_mod_left P t
        have hkey : (xs.length + 1) * P = xs.length * P + P := by ring
        rw [h1, h2, h3, List.getD_cons_succ]
        exact ih t f P d d2 hP
          (fun y hy => hf y (List.mem_cons_of_mem x hy))
          (by rw [List.length_cons, hkey] at hs; omega)

/-- The Cartesian product enumerates exactly `Π k_i` tuples. -/
lemma length_cartProd (ms : List (List ℚ)) :
    (cartProd ms).length = (ms.map List.length).prod := by
  induction ms with
  | nil => rfl
  | cons m rest ih =>
      rw [cartProd, List.map_cons, List.prod_cons,
        flatMap_const_length m _ (rest.map List.length).prod
          (fun _ _ => by rw [List.length_map, ih])]

/-- The tuple at joint index `s` of the Cartesian product is exactly the
per-appliance centroid list the unmixer selects for `s`. -/
lemma cartProd_getD :
    ∀ (ms : List (List ℚ)) (s : Nat), (∀ m ∈ ms, 1 ≤ m.length) →
      s < (ms.map List.length).prod →
      (cartProd ms).getD s []
        = (decode_one ms ((ms.map List.length).prod) s).map Prod.snd := by
  intro ms
  induction ms with
  | nil =>
      intro s hk hs
      simp only [List.map_nil, List.prod_nil, Nat.lt_one_iff] at hs
      subst hs
      rfl
  | cons m rest ih =>
      intro s hk hs
      have hkm : 1 ≤ m.length := hk m (List.mem_cons_self m rest)
      have hkr : ∀ x ∈ rest, 1 ≤ x.length :=
        fun x hx => hk x (List.mem_cons_of_mem m hx)
      have hP : 1 ≤ (rest.map List.length).prod := prod_len_pos hkr
      rw [List.map_cons, List.prod_cons] at hs ⊢
      rw [cartProd,
        flatMap_getD m s _ (rest.map List.length).prod [] 0 hP
          (fun x _ => by rw [List.length_map, length_cartProd]) hs]
      have hmodlt : s % (rest.map List.length).prod < (cartProd rest).length := by
        rw [length_cartProd]
        exact Nat.mod_lt _ (by omega)
      rw [List.getD_eq_getElem _ _ (by rw [List.length_map]; exact hmodlt),
        List.getElem_map]
      have hdiv : m.length * (rest.map List.length).prod / m.length
          = (rest.map List.length).prod :=
        Nat.mul_div_cancel_left _ (by omega)
      have hdlt : s / (rest.map List.length).prod < m.length :=
        Nat.div_lt_of_lt_mul (by rw [Nat.mul_comm]; exact hs)
      simp only [decode_one, hdiv, List.map_cons, Nat.mod_eq_of_lt hdlt]
      have htail : (cartProd rest).getD (s % (rest.map List.length).prod) []
          = (decode_one rest (rest.map List.length).prod s).map Prod.snd := by
        rw [ih (s % (rest.map List.length).prod) hkr (Nat.mod_lt _ (by omega)),
          ← decode_one_mod rest s hkr]
      rw [← List.getD_eq_getElem _ ([] : List ℚ) hmodlt, htail]

/-- Every appliance's decoded local state is reduced modulo its state
count and its power is the centroid at that state. -/
lemma decode_one_forall :
    ∀ (cs : List (List ℚ)) (factor s : Nat), (∀ c ∈ cs, 1 ≤ c.length) →
      List.Forall₂ (fun c (p : Nat × ℚ) =>
        ∃ h : p.1 < c.length, p.2 = c.get ⟨p.1, h⟩) cs (decode_one cs factor s) := by
  intro cs
  induction cs with
  | nil => intro factor s hk; exact List.Forall₂.nil
  | cons c rest ih =>
      intro factor s hk
      have hkc : 1 ≤ c.length := hk c (List.mem_cons_self c rest)
      simp only [decode_one]
      refine List.Forall₂.cons ?_
        (ih _ s (fun x hx => hk x (List.mem_cons_of_mem c hx)))
      have hlt : (s / (factor / c.length)) % c.length < c.length :=
        Nat.mod_lt _ (by omega)
      exact ⟨hlt, (List.getD_eq_getElem c 0 hlt).trans rfl⟩

lemma length_kron_vec (a b : List ℚ) :
    (kron_vec a b).length = a.length * b.length :=
  flatMap_const_length a _ b.length (fun _ _ => List.length_map b _)

lemma length_foldl_kron_vec :
    ∀ (l : List (List ℚ)) (a : List ℚ),
      (l.foldl kron_vec a).length = a.length * (l.map List.length).prod := by
  intro l
  induction l with
  | nil => intro a; simp
  | cons b rest ih =>
      intro a
      rw [List.foldl_cons, ih, length_kron_vec, List.map_cons,
        List.prod_cons, Nat.mul_assoc]


lemma kron_mat_shape {A B : List (List ℚ)} {r₁ c₁ r₂ c₂ : Nat}
    (hA : MatrixShape A r₁ c₁) (hB : MatrixShape B r₂ c₂) :
    MatrixShape (kron_mat A B) (r₁ * r₂) (c₁ * c₂) := by
  constructor
  · rw [kron_mat,
      flatMap_const_length A _ B.length (fun ra _ => List.length_map B _),
      hA.1, hB.1]
  · intro row hrow
    rw [kron_mat, List.mem_flatMap] at hrow
    obtain ⟨ra, hra, hrow⟩ := hrow
    rw [List.mem_map] at hrow
    obtain ⟨rb, hrb, rfl⟩ := hrow
    rw [length_kron_vec, hA.2 ra hra, hB.2 rb hrb]

lemma foldl_kron_mat_shape :
    ∀ (l : List (List (List ℚ))) (A : List (List ℚ)) (r c : Nat),
      MatrixShape A r c → (∀ M ∈ l, MatrixShape M M.length M.length) →
      MatrixShape (l.foldl kron_mat A)
        (r * (l.map List.length).prod) (c * (l.map List.length).prod) := by
  intro l
  induction l with
  | nil => intro A r c hA _; simpa using hA
  | cons B rest ih =>
      intro A r c hA hl
      have hB := hl B (List.mem_cons_self B rest)
      have hrec := ih (kron_mat A B) (r * B.length) (c * B.length)
        (kron_mat_shape hA hB)
        (fun M hM => hl M (List.mem_cons_of_mem B hM))
      rw [List.foldl_cons, List.map_cons, List.prod_cons]
      constructor
      · rw [hrec.1]; ring
      · intro row hrow
        rw [hrec.2 row hrow]; ring

/-- Kronecker products multiply the entry sums of vectors. -/
lemma sum_kron_vec (a b : List ℚ) : (kron_vec a b).sum = a.sum * b.sum := by
  induction a with
  | nil => simp [kron_vec]
  | cons x xs ih =>
      rw [kron_vec, List.flatMap_cons, List.sum_append]
      rw [kron_vec] at ih
      rw [ih, List.sum_map_mul_left, List.sum_cons]
      simp only [List.map_id_fun', id]
      ring


lemma kron_mat_row_stochastic {A B : List (List ℚ)}
    (hA : RowStochastic A) (hB : RowStochastic B) :
    RowStochastic (kron_mat A B) := by
  intro row hrow
  rw [kron_mat, List.mem_flatMap] at hrow
  obtain ⟨ra, hra, hrow⟩ := hrow
  rw [List.mem_map] at hrow
  obtain ⟨rb, hrb, rfl⟩ := hrow
  rw [sum_kron_vec, hA ra hra, hB rb hrb, one_mul]

lemma foldl_kron_mat_row_stochastic :
    ∀ (l : List (List (List ℚ))) (A : List (List ℚ)),
      RowStochastic A → (∀ M ∈ l, RowStochastic M) →
      RowStochastic (l.foldl kron_mat A) := by
  intro l
  induction l with
  | nil => intro A hA _; exact hA
  | cons B rest ih =>
      intro A hA hl
      rw [List.foldl_cons]
      exact ih (kron_mat A B)
        (kron_mat_row_stochastic hA (hl B (List.mem_cons_self B rest)))
        (fun M hM => hl M (List.mem_cons_of_mem B hM))


lemma list_ext_getD {α : Type} (l₁ l₂ : List α) (d : α)
    (hlen : l₁.length = l₂.length)
    (h : ∀ i, i < l₁.length → l₁.getD i d = l₂.getD i d) : l₁ = l₂ := by
  apply List.ext_getElem hlen
  intro i h1 h2
  have := h i h1
  rwa [List.getD_eq_getElem _ _ h1, List.getD_eq_getElem _ _ h2] at this

lemma range_map_getD {α : Type} (n : Nat) (f : Nat → α) (d : α) (i : Nat)
    (hi : i < n) : ((List.range n).map f).getD i d = f i := by
  rw [List.getD_eq_getElem _ _ (by simpa using hi), List.getElem_map,
    List.getElem_range]

lemma map_getD_range (l : List ℚ) :
    (List.range l.length).map (fun i => l.getD i 0) = l := by
  apply List.ext_getElem (by simp)
  intro i h1 h2
  rw [List.getElem_map, List.getElem_range, List.getD_eq_getElem _ _ h2]

lemma range_map_getD_eq_map (l : List Nat) (f : Nat → ℚ) :
    (List.range l.length).map (fun i => f (l.getD i 0)) = l.map f := by
  apply List.ext_getElem (by simp)
  intro i h1 h2
  rw [List.getElem_map, List.getElem_range, List.getElem_map,
    List.getD_eq_getElem _ _ (by simpa using h2)]

lemma getD_mem {α : Type} (l : List α) (i : Nat) (d : α) (hi : i < l.length) :
    l.getD i d ∈ l := by
  rw [List.getD_eq_getElem _ _ hi]
  exact List.getElem_mem hi

lemma firstIndexOf_lt_length {v : ℚ} {l : List ℚ} (hv : v ∈ l) :
    firstIndexOf v l < l.length :=
  List.findIdx_lt_length_of_exists ⟨v, hv, by simp⟩

lemma get_firstIndexOf {v : ℚ} {l : List ℚ} (hv : v ∈ l) :
    l.get ⟨firstIndexOf v l, firstIndexOf_lt_length hv⟩ = v := by
  have h := List.findIdx_getElem (p := fun x => decide (x = v))
    (w := firstIndexOf_lt_length hv)
  exact of_decide_eq_true h

lemma length_return_sorting_mapping (means : List ℚ) :
    (return_sorting_mapping means).length = means.length := by
  rw [return_sorting_mapping, List.length_map, List.length_insertionSort]

lemma mem_return_sorting_mapping_lt {means : List ℚ} {j : Nat}
    (hj : j ∈ return_sorting_mapping means) : j < means.length := by
  rw [return_sorting_mapping, List.mem_map] at hj
  obtain ⟨v, hv, rfl⟩ := hj
  exact firstIndexOf_lt_length ((List.mem_insertionSort _).mp hv)

lemma getD_return_sorting_mapping (means : List ℚ) (i : Nat)
    (hi : i < means.length) :
    (return_sorting_mapping means).getD i 0
      = firstIndexOf ((List.insertionSort (· ≤ ·) means).getD i 0) means := by
  rw [return_sorting_mapping,
    List.getD_eq_getElem _ _
      (by rw [List.length_map, List.length_insertionSort]; exact hi),
    List.getElem_map,
    ← List.getD_eq_getElem _ _ (by rw [List.length_insertionSort]; exact hi)]

lemma getD_return_sorting_mapping_lt (means : List ℚ) (i : Nat)
    (hi : i < means.length) :
    (return_sorting_mapping means).getD i 0 < means.length :=
  mem_return_sorting_mapping_lt
    (getD_mem _ i 0 (by rw [length_return_sorting_mapping]; exact hi))

lemma perm_range_of_nodup (l : List Nat) (k : Nat) (hnd : l.Nodup)
    (hlt : ∀ j ∈ l, j < k) (hlen : l.length = k) :
    List.Perm l (List.range k) :=
  List.Subperm.perm_of_length_le
    (List.subperm_of_subset hnd (fun j hj => List.mem_range.mpr (hlt j hj)))
    (by rw [List.length_range, hlen])

/-- Sorting an already-sorted means vector changes nothing. -/
lemma insertionSort_idem (means : List ℚ) :
    List.insertionSort (· ≤ ·) (List.insertionSort (· ≤ ·) means)
      = List.insertionSort (· ≤ ·) means :=
  List.Sorted.insertionSort_eq (List.sorted_insertionSort _ means)

lemma getD_mapping_of_sorted (means : List ℚ) (i : Nat)
    (hi : i < means.length) :
    (return_sorting_mapping (List.insertionSort (· ≤ ·) means)).getD i 0
      = firstIndexOf ((List.insertionSort (· ≤ ·) means).getD i 0)
          (List.insertionSort (· ≤ ·) means) := by
  rw [getD_return_sorting_mapping _ i
      (by rw [List.length_insertionSort]; exact hi),
    insertionSort_idem]

lemma mapping_sorted_lt (means : List ℚ) (i : Nat) (hi : i < means.length) :
    (return_sorting_mapping (List.insertionSort (· ≤ ·) means)).getD i 0
      < means.length := by
  have h := getD_return_sorting_mapping_lt (List.insertionSort (· ≤ ·) means)
    i (by rw [List.length_insertionSort]; exact hi)
  rwa [List.length_insertionSort] at h

lemma getD_sorted_firstIndexOf (l : List ℚ) (i : Nat) (hi : i < l.length) :
    l.getD (firstIndexOf (l.getD i 0) l) 0 = l.getD i 0 := by
  have hv : l.getD i 0 ∈ l := getD_mem _ _ _ hi
  rw [List.getD_eq_getElem _ _ (firstIndexOf_lt_length hv)]
  have h := get_firstIndexOf hv
  rwa [List.get_eq_getElem] at h

/-- On the second canonicalization pass, composing the fresh mapping with
the original one gives back the original mapping: positions that share a
value after the first pass already hold equal entries. -/
lemma mapping_collapse (means : List ℚ) (i : Nat) (hi : i < means.length) :
    (return_sorting_mapping means).getD
      ((return_sorting_mapping (List.insertionSort (· ≤ ·) means)).getD i 0) 0
      = (return_sorting_mapping means).getD i 0 := by
  have hi' : i < (List.insertionSort (· ≤ ·) means).length := by
    rw [List.length_insertionSort]; exact hi
  have hflt : firstIndexOf ((List.insertionSort (· ≤ ·) means).getD i 0)
      (List.insertionSort (· ≤ ·) means) < means.length := by
    have h := firstIndexOf_lt_length (getD_mem _ i 0 hi')
    rwa [List.length_insertionSort] at h
  rw [getD_mapping_of_sorted means i hi,
    getD_return_sorting_mapping means _ hflt,
    getD_return_sorting_mapping means i hi]
  congr 1
  exact getD_sorted_firstIndexOf _ i hi'

lemma length_sort_startprob (mapping : List Nat) (v : List ℚ) :
    (sort_startprob mapping v).length = v.length := by
  rw [sort_startprob, List.length_map, List.length_range]

lemma length_sort_transition_matrix (mapping : List Nat)
    (T : List (List ℚ)) :
    (sort_transition_matrix mapping T).length = T.length := by
  rw [sort_transition_matrix, List.length_map, List.length_range]

/-- Permuting a vector by the second-pass mapping fixes the once-permuted
vector. -/
lemma sort_vec_twice (means v : List ℚ) (hv : v.length = means.length) :
    sort_startprob
        (return_sorting_mapping (List.insertionSort (· ≤ ·) means))
        (sort_startprob (return_sorting_mapping means) v)
      = sort_startprob (return_sorting_mapping means) v := by
  have hlen1 : (sort_startprob (return_sorting_mapping means) v).length
      = v.length := length_sort_startprob _ v
  apply list_ext_getD _ _ 0 (length_sort_startprob _ _)
  intro i hi
  rw [length_sort_startprob, hlen1] at hi
  have him : i < means.length := hv ▸ hi
  have hmlt : (return_sorting_mapping
      (List.insertionSort (· ≤ ·) means)).getD i 0 < v.length := by
    rw [hv]; exact mapping_sorted_lt means i him
  rw [sort_startprob, range_map_getD _ _ _ i (by rw [hlen1]; exact hi)]
  rw [sort_startprob, range_map_getD _ _ _ _ hmlt,
    range_map_getD _ _ _ i hi, mapping_collapse means i him]

/-- Permuting a transition matrix by the second-pass mapping fixes the
once-permuted matrix. -/
lemma sort_transmat_twice (means : List ℚ) (T : List (List ℚ))
    (hT : T.length = means.length) :
    sort_transition_matrix
        (return_sorting_mapping (List.insertionSort (· ≤ ·) means))
        (sort_transition_matrix (return_sorting_mapping means) T)
      = sort_transition_matrix (return_sorting_mapping means) T := by
  have hlen1 : (sort_transition_matrix (return_sorting_mapping means)
      T).length = T.length := length_sort_transition_matrix _ T
  apply list_ext_getD _ _ ([] : List ℚ) (length_sort_transition_matrix _ _)
  intro i hi
  rw [length_sort_transition_matrix, hlen1] at hi
  have him : i < means.length := hT ▸ hi
  have hmi : (return_sorting_mapping
      (List.insertionSort (· ≤ ·) means)).getD i 0 < T.length := by
    rw [hT]; exact mapping_sorted_lt means i him
  rw [sort_transition_matrix, range_map_getD _ _ _ i (by rw [hlen1]; exact hi)]
  conv_rhs => rw [sort_transition_matrix]
  rw [range_map_getD _ _ _ i hi, hlen1]
  apply List.map_congr_left
  intro j hj
  rw [List.mem_range] at hj
  have hjm : j < means.length := hT ▸ hj
  have hmj : (return_sorting_mapping
      (List.insertionSort (· ≤ ·) means)).getD j 0 < T.length := by
    rw [hT]; exact mapping_sorted_lt means j hjm
  rw [sort_transition_matrix, range_map_getD _ _ _ _ hmi,
    range_map_getD _ _ _ _ hmj, mapping_collapse means i him,
    mapping_collapse means j hjm]

/-! ## Claims -/

/-- C1: for every N ≥ 1 appliances with state counts all ≥ 1 and
K = k₁⋯k_N, and every joint index s < K, unmixing `s` with `decode_hmm`
(factor starts at K and is divided by each state count in combination
order; local state = ⌊s/factor⌋ mod kᵢ) and recombining the local states by
the mixed-radix encoding with the first appliance most significant recovers
`s` exactly. -/
theorem decode_encode_roundtrip (centroids : List (List ℚ))
    (_hN : 1 ≤ centroids.length) (hk : ∀ c ∈ centroids, 1 ≤ c.length)
    (s : Nat) (hs : s < total_num_combinations centroids) :
    encode_mixed_radix (centroids.map List.length)
      ((decode_one centroids (total_num_combinations centroids) s).map
        Prod.fst) = s := by
  rw [total_num_combinations_eq] at hs ⊢
  rw [encode_decode_mod centroids hk s, Nat.mod_eq_of_lt hs]

theorem decode_encode_roundtrip_witness :
    1 ≤ ([[(1 : ℚ), 2], [1, 2, 3]] : List (List ℚ)).length ∧
    encode_mixed_radix ([[(1 : ℚ), 2], [1, 2, 3]].map List.length)
      ((decode_one [[(1 : ℚ), 2], [1, 2, 3]]
          (total_num_combinations [[(1 : ℚ), 2], [1, 2, 3]]) 5).map
        Prod.fst) = 5 :=
  ⟨by decide,
    decode_encode_roundtrip [[(1 : ℚ), 2], [1, 2, 3]] (by decide)
      (by decide) 5 (by decide)⟩

/-- C10: for every call of `decode_hmm` on nonnegative joint state values
(even at or above K), each appliance's local state is in `[0, kᵢ)` because
it is reduced modulo the appliance's state count, so the centroid lookup is
in bounds and the returned power is `centroids[appliance][local_state]`. -/
theorem decode_states_in_bounds (centroids : List (List ℚ))
    (hk : ∀ c ∈ centroids, 1 ≤ c.length) (states : List Nat) :
    ∀ row ∈ decode_hmm centroids states,
      List.Forall₂ (fun c (p : Nat × ℚ) =>
        ∃ h : p.1 < c.length, p.2 = c.get ⟨p.1, h⟩) centroids row := by
  intro row hrow
  rw [decode_hmm, List.mem_map] at hrow
  obtain ⟨s, _, rfl⟩ := hrow
  exact decode_one_forall centroids _ s hk

theorem decode_states_in_bounds_witness :
    List.Forall₂ (fun c (p : Nat × ℚ) =>
      ∃ h : p.1 < c.length, p.2 = c.get ⟨p.1, h⟩)
      [[(1 : ℚ), 2], [1, 2, 3]]
      (decode_one [[(1 : ℚ), 2], [1, 2, 3]]
        (total_num_combinations [[(1 : ℚ), 2], [1, 2, 3]]) 7) :=
  decode_states_in_bounds [[(1 : ℚ), 2], [1, 2, 3]] (by decide) [7]
    (decode_one [[(1 : ℚ), 2], [1, 2, 3]]
      (total_num_combinations [[(1 : ℚ), 2], [1, 2, 3]]) 7)
    (by simp [decode_hmm])

/-- C2: the joint mean at joint index `s` built by `compute_means_fhmm`
equals the sum over appliances of the local mean selected by unmixing `s`
with the decoder: the Cartesian-product enumeration (first appliance
slowest) matches the index order the unmixer inverts. -/
theorem joint_means_additive (list_means : List (List ℚ))
    (hk : ∀ m ∈ list_means, 1 ≤ m.length) (s : Nat)
    (hs : s < total_num_combinations list_means) :
    (compute_means_fhmm list_means).getD s 0
      = ((decode_one list_means (total_num_combinations list_means) s).map
          Prod.snd).sum := by
  rw [total_num_combinations_eq] at hs ⊢
  rw [compute_means_fhmm]
  have hlen : s < (cartProd list_means).length := by
    rw [length_cartProd]; exact hs
  rw [List.getD_eq_getElem _ _ (by rw [List.length_map]; exact hlen),
    List.getElem_map, ← List.getD_eq_getElem _ ([] : List ℚ) hlen,
    cartProd_getD list_means s hk hs]

theorem joint_means_additive_witness :
    (compute_means_fhmm [[(10 : ℚ), 100], [5, 50]]).getD 2 0
      = ((decode_one [[(10 : ℚ), 100], [5, 50]]
          (total_num_combinations [[(10 : ℚ), 100], [5, 50]]) 2).map
          Prod.snd).sum :=
  joint_means_additive [[(10 : ℚ), 100], [5, 50]] (by decide) 2 (by decide)

/-- C7: two appliances with 2 states each and means `[10, 100]` and
`[5, 50]` give a joint model with K = 4 states whose joint means vector is
exactly `(15, 60, 105, 150)`, the first appliance most significant. -/
theorem concrete_two_appliance_joint_means (m₁ m₂ : ApplianceHMM)
    (h₁ : m₁.means = [10, 100]) (h₂ : m₂.means = [5, 50]) :
    (create_combined_hmm [m₁, m₂]).means.length = 4 ∧
    (create_combined_hmm [m₁, m₂]).means = [15, 60, 105, 150] := by
  have hmeans : (create_combined_hmm [m₁, m₂]).means
      = compute_means_fhmm [m₁.means, m₂.means] := rfl
  rw [hmeans, h₁, h₂]
  constructor
  · rfl
  · simp only [compute_means_fhmm, cartProd, List.flatMap_cons,
      List.flatMap_nil, List.map_cons, List.map_nil, List.append_nil,
      List.sum_cons, List.sum_nil]
    norm_num

/-- With distinct means, the canonicalization mapping is a permutation of
`0 .. k-1`: the ascending sort is duplicate-free, so each sorted value's
first occurrence in the original means is a distinct in-range index. -/
lemma return_sorting_mapping_perm (means : List ℚ) (hnd : means.Nodup) :
    List.Perm (return_sorting_mapping means) (List.range means.length) := by
  have hsortnd : (List.insertionSort (· ≤ ·) means).Nodup :=
    (List.Perm.nodup_iff (List.perm_insertionSort _ means)).mpr hnd
  apply perm_range_of_nodup
  · rw [return_sorting_mapping]
    apply List.Nodup.map_on ?_ hsortnd
    intro x hx y hy hfxy
    have hx' := (List.mem_insertionSort _).mp hx
    have hy' := (List.mem_insertionSort _).mp hy
    have h1 := get_firstIndexOf hx'
    have h2 := get_firstIndexOf hy'
    have hfin : (⟨firstIndexOf x means, firstIndexOf_lt_length hx'⟩ :
        Fin means.length) = ⟨firstIndexOf y means, firstIndexOf_lt_length hy'⟩ :=
      Fin.ext hfxy
    rw [← h1, ← h2, hfin]
  · intro j hj
    exact mem_return_sorting_mapping_lt hj
  · exact length_return_sorting_mapping means

/-- Canonicalizing a row-stochastic transition matrix with a duplicate-free
means vector keeps every row sum equal to one: each new row is the old row
at a permuted index with its entries permuted. -/
lemma sorted_transmat_row_stochastic (means : List ℚ) (T : List (List ℚ))
    (hnd : means.Nodup) (hT : T.length = means.length)
    (hTr : ∀ row ∈ T, row.length = means.length)
    (hst : RowStochastic T) :
    RowStochastic (sort_transition_matrix (return_sorting_mapping means) T) := by
  intro row hrow
  rw [sort_transition_matrix, List.mem_map] at hrow
  obtain ⟨i, hi, rfl⟩ := hrow
  rw [List.mem_range] at hi
  have hmi : (return_sorting_mapping means).getD i 0 < T.length := by
    rw [hT]; exact getD_return_sorting_mapping_lt means i (hT ▸ hi)
  have hrowmem : T.getD ((return_sorting_mapping means).getD i 0) [] ∈ T :=
    getD_mem _ _ _ hmi
  have hrowlen : (T.getD ((return_sorting_mapping means).getD i 0) []).length
      = means.length := hTr _ hrowmem
  have hlenmap : (return_sorting_mapping means).length = means.length :=
    length_return_sorting_mapping means
  have hmapped :
      (List.range T.length).map (fun j =>
        (T.getD ((return_sorting_mapping means).getD i 0) []).getD
          ((return_sorting_mapping means).getD j 0) 0)
      = (return_sorting_mapping means).map (fun j =>
          (T.getD ((return_sorting_mapping means).getD i 0) []).getD j 0) := by
    rw [hT, ← hlenmap]
    exact range_map_getD_eq_map (return_sorting_mapping means)
      (fun idx =>
        (T.getD ((return_sorting_mapping means).getD i 0) []).getD idx 0)
  rw [hmapped,
    List.Perm.sum_eq ((return_sorting_mapping_perm means hnd).map _),
    ← hrowlen, map_getD_range]
  exact hst _ hrowmem

/-- C6: for N ≥ 1 appliance models with state counts k₁,…,k_N, the joint
model has exactly K = k₁⋯k_N states: joint prior and joint means both have
length K and the joint transition matrix is K × K. -/
theorem joint_model_dimensions (models : List ApplianceHMM)
    (hne : models ≠ []) (hv : ∀ m ∈ models, ValidHMM m) :
    (create_combined_hmm models).startprob.length
        = (models.map (fun m => m.means.length)).prod ∧
    (create_combined_hmm models).means.length
        = (models.map (fun m => m.means.length)).prod ∧
    MatrixShape (create_combined_hmm models).transmat
      ((models.map (fun m => m.means.length)).prod)
      ((models.map (fun m => m.means.length)).prod) := by
  cases models with
  | nil => cases hne rfl
  | cons m rest =>
      have hvm := hv m (List.mem_cons_self m rest)
      have hvr : ∀ x ∈ rest, ValidHMM x :=
        fun x hx => hv x (List.mem_cons_of_mem m hx)
      refine ⟨?_, ?_, ?_⟩
      · show ((rest.map (fun x => x.startprob)).foldl kron_vec
            m.startprob).length = _
        have hmaps : rest.map (fun x => x.startprob.length)
            = rest.map (fun x => x.means.length) :=
          List.map_congr_left (fun x hx => (hvr x hx).1)
        rw [length_foldl_kron_vec]
        simp only [List.map_map, Function.comp_def, List.map_cons,
          List.prod_cons]
        rw [hvm.1, hmaps]
      · show (compute_means_fhmm ((m :: rest).map (fun x => x.means))).length = _
        rw [compute_means_fhmm, List.length_map, length_cartProd,
          List.map_map]
        simp only [Function.comp_def]
      · show MatrixShape ((rest.map (fun x => x.transmat)).foldl kron_mat
            m.transmat) _ _
        have hshape : MatrixShape m.transmat m.means.length m.means.length :=
          ⟨hvm.2.2.1, hvm.2.2.2⟩
        have hrest : ∀ M ∈ rest.map (fun x => x.transmat),
            MatrixShape M M.length M.length := by
          intro M hM
          rw [List.mem_map] at hM
          obtain ⟨x, hx, rfl⟩ := hM
          exact ⟨rfl, fun row hrow =>
            ((hvr x hx).2.2.1).symm ▸ (hvr x hx).2.2.2 row hrow⟩
        have hres := foldl_kron_mat_shape (rest.map (fun x => x.transmat))
          m.transmat m.means.length m.means.length hshape hrest
        have hmaps : rest.map (fun x => x.transmat.length)
            = rest.map (fun x => x.means.length) :=
          List.map_congr_left (fun x hx => (hvr x hx).2.2.1)
        simp only [List.map_map, Function.comp_def] at hres
        rw [hmaps] at hres
        simpa [List.map_cons, List.prod_cons] using hres

theorem joint_model_dimensions_witness :
    (create_combined_hmm [⟨[1, 0], [0, 10], [1, 1], [[1, 0], [0, 1]]⟩,
        ⟨[1], [5], [2], [[1]]⟩]).startprob.length = 2 ∧
    (create_combined_hmm [⟨[1, 0], [0, 10], [1, 1], [[1, 0], [0, 1]]⟩,
        ⟨[1], [5], [2], [[1]]⟩]).means.length = 2 ∧
    MatrixShape (create_combined_hmm [⟨[1, 0], [0, 10], [1, 1],
        [[1, 0], [0, 1]]⟩, ⟨[1], [5], [2], [[1]]⟩]).transmat 2 2 :=
  joint_model_dimensions
    [⟨[1, 0], [0, 10], [1, 1], [[1, 0], [0, 1]]⟩, ⟨[1], [5], [2], [[1]]⟩]
    (by decide)
    (by intro x hx
        simp only [List.mem_cons, List.mem_singleton] at hx
        rcases hx with rfl | rfl | h
        · exact ⟨rfl, rfl, rfl, by decide⟩
        · exact ⟨rfl, rfl, rfl, by decide⟩
        · cases h)

/-- C5: the Kronecker-product joint transition matrix of row-stochastic
transition matrices is row-stochastic, and each input transition matrix is
still row-stochastic after canonicalization (given distinct means). -/
theorem stochasticity_preservation (models : List ApplianceHMM)
    (hv : ∀ m ∈ models, ValidHMM m)
    (hst : ∀ m ∈ models, RowStochastic m.transmat)
    (hnd : ∀ m ∈ models, m.means.Nodup) :
    RowStochastic (create_combined_hmm models).transmat ∧
    ∀ m ∈ models, RowStochastic
      (sort_learnt_parameters m.startprob m.means m.covars
        m.transmat).transmat := by
  constructor
  · cases models with
    | nil =>
        intro row hrow
        cases hrow
    | cons m rest =>
        show RowStochastic ((rest.map (fun x => x.transmat)).foldl kron_mat
          m.transmat)
        apply foldl_kron_mat_row_stochastic
        · exact hst m (List.mem_cons_self m rest)
        · intro M hM
          rw [List.mem_map] at hM
          obtain ⟨x, hx, rfl⟩ := hM
          exact hst x (List.mem_cons_of_mem m hx)
  · intro m hm
    show RowStochastic
      (sort_transition_matrix (return_sorting_mapping m.means) m.transmat)
    exact sorted_transmat_row_stochastic m.means m.transmat (hnd m hm)
      (hv m hm).2.2.1 (hv m hm).2.2.2 (hst m hm)

theorem stochasticity_preservation_witness :
    RowStochastic (create_combined_hmm
      [⟨[1, 0], [0, 10], [1, 1], [[1, 0], [0, 1]]⟩]).transmat ∧
    ∀ m ∈ [(⟨[1, 0], [0, 10], [1, 1], [[1, 0], [0, 1]]⟩ : ApplianceHMM)],
      RowStochastic (sort_learnt_parameters m.startprob m.means m.covars
        m.transmat).transmat :=
  stochasticity_preservation [⟨[1, 0], [0, 10], [1, 1], [[1, 0], [0, 1]]⟩]
    (by intro x hx
        simp only [List.mem_singleton] at hx
        subst hx
        exact ⟨rfl, rfl, rfl, by decide⟩)
    (by intro x hx
        simp only [List.mem_singleton] at hx
        subst hx
        intro row hrow
        simp only [List.mem_cons, List.not_mem_nil, or_false] at hrow
        rcases hrow with rfl | rfl <;> simp)
    (by intro x hx
        simp only [List.mem_singleton] at hx
        subst hx
        decide)

theorem concrete_two_appliance_joint_means_witness :
    (create_combined_hmm
      [⟨[1], [10, 100], [1], [[1]]⟩, ⟨[1], [5, 50], [1], [[1]]⟩]).means.length
        = 4 ∧
    (create_combined_hmm
      [⟨[1], [10, 100], [1], [[1]]⟩, ⟨[1], [5, 50], [1], [[1]]⟩]).means
        = [15, 60, 105, 150] :=
  concrete_two_appliance_joint_means
    ⟨[1], [10, 100], [1], [[1]]⟩ ⟨[1], [5, 50], [1], [[1]]⟩ rfl rfl

/-- C3 (counterexample): with duplicate means `[5, 5]`, the first-occurrence
lookup of `return_sorting_mapping` sends both sorted positions to index 0,
so the mapping is not a permutation of `0 .. k-1`. -/
theorem mapping_dup_not_permutation :
    ¬ ([(5 : ℚ), 5].Nodup) ∧
    return_sorting_mapping [(5 : ℚ), 5] = [0, 0] ∧
    ¬ IsPermutationOfRange (return_sorting_mapping [(5 : ℚ), 5]) 2 := by
  have hmap : return_sorting_mapping [(5 : ℚ), 5] = [0, 0] := by decide
  refine ⟨by decide, hmap, ?_⟩
  rw [IsPermutationOfRange, hmap]
  intro hperm
  have hnd := (List.Perm.nodup_iff hperm).mpr (List.nodup_range 2)
  simp at hnd

/-- C3 (amended): on a means vector with duplicate values the mapping sends
every sorted position holding a duplicated value to the same first
occurrence, so it is not injective; the mapping is a permutation of
`0 .. k-1` exactly when the means are all distinct, which is proved here
for every duplicate-free means vector. -/
theorem mapping_perm_of_distinct_means (means : List ℚ)
    (hnd : means.Nodup) :
    IsPermutationOfRange (return_sorting_mapping means) means.length :=
  return_sorting_mapping_perm means hnd

theorem mapping_perm_of_distinct_means_witness :
    IsPermutationOfRange (return_sorting_mapping [(10 : ℚ), 100]) 2 :=
  mapping_perm_of_distinct_means [(10 : ℚ), 100] (by decide)

/-- C4: with all-distinct means, canonicalization sorts the means
ascending (a sorted permutation of the input) and permutes prior,
covariance and transition with the one mapping: `newPrior[i] =
prior[mapping[i]]`, `newCovariance[i] = covariance[mapping[i]]`, and
`newTransition[i][j] = transition[mapping[i]][mapping[j]]`, both axes
permuted by the same permutation of `0 .. k-1`. -/
theorem canonicalization_sorts_and_permutes (p means c : List ℚ)
    (T : List (List ℚ)) (hnd : means.Nodup)
    (hp : p.length = means.length) (hc : c.length = means.length)
    (hT : T.length = means.length) :
    IsPermutationOfRange (return_sorting_mapping means) means.length ∧
    List.Perm (sort_learnt_parameters p means c T).means means ∧
    List.Sorted (· ≤ ·) (sort_learnt_parameters p means c T).means ∧
    (∀ i < means.length,
      (sort_learnt_parameters p means c T).startprob.getD i 0
        = p.getD ((return_sorting_mapping means).getD i 0) 0) ∧
    (∀ i < means.length,
      (sort_learnt_parameters p means c T).covars.getD i 0
        = c.getD ((return_sorting_mapping means).getD i 0) 0) ∧
    (∀ i < means.length, ∀ j < means.length,
      ((sort_learnt_parameters p means c T).transmat.getD i []).getD j 0
        = (T.getD ((return_sorting_mapping means).getD i 0) []).getD
            ((return_sorting_mapping means).getD j 0) 0) := by
  refine ⟨return_sorting_mapping_perm means hnd,
    List.perm_insertionSort _ means,
    List.sorted_insertionSort _ means, ?_, ?_, ?_⟩
  · intro i hi
    show (sort_startprob (return_sorting_mapping means) p).getD i 0 = _
    rw [sort_startprob, range_map_getD _ _ _ i (hp ▸ hi)]
  · intro i hi
    show (sort_covars (return_sorting_mapping means) c).getD i 0 = _
    rw [sort_covars, range_map_getD _ _ _ i (hc ▸ hi)]
  · intro i hi j hj
    show ((sort_transition_matrix (return_sorting_mapping means) T).getD
      i []).getD j 0 = _
    rw [sort_transition_matrix, range_map_getD _ _ _ i (hT ▸ hi),
      range_map_getD _ _ _ j (hT ▸ hj)]

theorem canonicalization_sorts_and_permutes_witness :
    IsPermutationOfRange (return_sorting_mapping [(100 : ℚ), 10]) 2 ∧
    List.Perm (sort_learnt_parameters [1, 0] [(100 : ℚ), 10] [3, 4]
      [[1, 0], [0, 1]]).means [(100 : ℚ), 10] ∧
    List.Sorted (· ≤ ·) (sort_learnt_parameters [1, 0] [(100 : ℚ), 10] [3, 4]
      [[1, 0], [0, 1]]).means ∧
    (∀ i < ([(100 : ℚ), 10] : List ℚ).length,
      (sort_learnt_parameters [1, 0] [(100 : ℚ), 10] [3, 4]
        [[1, 0], [0, 1]]).startprob.getD i 0
        = ([1, 0] : List ℚ).getD
            ((return_sorting_mapping [(100 : ℚ), 10]).getD i 0) 0) ∧
    (∀ i < ([(100 : ℚ), 10] : List ℚ).length,
      (sort_learnt_parameters [1, 0] [(100 : ℚ), 10] [3, 4]
        [[1, 0], [0, 1]]).covars.getD i 0
        = ([3, 4] : List ℚ).getD
            ((return_sorting_mapping [(100 : ℚ), 10]).getD i 0) 0) ∧
    (∀ i < ([(100 : ℚ), 10] : List ℚ).length,
      ∀ j < ([(100 : ℚ), 10] : List ℚ).length,
      ((sort_learnt_parameters [1, 0] [(100 : ℚ), 10] [3, 4]
        [[1, 0], [0, 1]]).transmat.getD i []).getD j 0
        = (([[1, 0], [0, 1]] : List (List ℚ)).getD
            ((return_sorting_mapping [(100 : ℚ), 10]).getD i 0) []).getD
            ((return_sorting_mapping [(100 : ℚ), 10]).getD j 0) 0) :=
  canonicalization_sorts_and_permutes [1, 0] [(100 : ℚ), 10] [3, 4]
    [[1, 0], [0, 1]] (by decide) rfl rfl rfl

/-- C9: the canonicalizer is idempotent — applying
`sort_learnt_parameters` to its own output returns that output unchanged:
the means are already sorted, and after one pass positions sharing a mean
hold equal entries in every parameter array, so the second-pass
permutation fixes everything. -/
theorem canonicalizer_idempotent (p means c : List ℚ) (T : List (List ℚ))
    (hp : p.length = means.length) (hc : c.length = means.length)
    (hT : T.length = means.length) :
    sort_learnt_parameters
      (sort_learnt_parameters p means c T).startprob
      (sort_learnt_parameters p means c T).means
      (sort_learnt_parameters p means c T).covars
      (sort_learnt_parameters p means c T).transmat
      = sort_learnt_parameters p means c T := by
  have h1 := sort_vec_twice means p hp
  have h3 := sort_vec_twice means c hc
  have h4 := sort_transmat_twice means T hT
  simp only [sort_learnt_parameters, SortedParams.mk.injEq]
  exact ⟨h1, insertionSort_idem means, h3, h4⟩

theorem canonicalizer_idempotent_witness :
    sort_learnt_parameters
      (sort_learnt_parameters [1, 0] [(7 : ℚ), 3] [1, 2]
        [[1, 0], [0, 1]]).startprob
      (sort_learnt_parameters [1, 0] [(7 : ℚ), 3] [1, 2]
        [[1, 0], [0, 1]]).means
      (sort_learnt_parameters [1, 0] [(7 : ℚ), 3] [1, 2]
        [[1, 0], [0, 1]]).covars
      (sort_learnt_parameters [1, 0] [(7 : ℚ), 3] [1, 2]
        [[1, 0], [0, 1]]).transmat
      = sort_learnt_parameters [1, 0] [(7 : ℚ), 3] [1, 2] [[1, 0], [0, 1]] :=
  canonicalizer_idempotent [1, 0] [(7 : ℚ), 3] [1, 2] [[1, 0], [0, 1]]
    rfl rfl rfl

/-- C8: a chunk shorter than `MIN_CHUNK_LENGTH` is skipped and contributes
no output rows; a chunk whose length T after dropping missing values is at
or above the minimum produces exactly T output rows, one per observation,
given the decoder's length contract (see `PredictLengthContract`). -/
theorem chunk_policy (predict : List ℚ → List Nat)
    (centroids : List (List ℚ)) (chunk : List (Option ℚ))
    (hpred : PredictLengthContract predict) :
    (chunk.length < MIN_CHUNK_LENGTH →
      process_chunk predict centroids chunk = []) ∧
    (MIN_CHUNK_LENGTH ≤ (dropna chunk).length →
      (process_chunk predict centroids chunk).length
        = (dropna chunk).length) := by
  constructor
  · intro h
    rw [process_chunk, if_pos h]
  · intro h
    have hle : (dropna chunk).length ≤ chunk.length := by
      rw [dropna]; exact List.length_filterMap_le id chunk
    rw [process_chunk, if_neg (by omega)]
    simp only [disaggregate_chunk, decode_hmm, List.length_map]
    exact hpred (dropna chunk)

theorem chunk_policy_witness :
    MIN_CHUNK_LENGTH ≤ (dropna (List.replicate 100 (some (1 : ℚ)))).length ∧
    (process_chunk (fun xs => xs.map (fun _ => 0)) [[(1 : ℚ)]]
        (List.replicate 100 (some (1 : ℚ)))).length
      = (dropna (List.replicate 100 (some (1 : ℚ)))).length := by
  have h : MIN_CHUNK_LENGTH
      ≤ (dropna (List.replicate 100 (some (1 : ℚ)))).length := by
    simp [dropna, MIN_CHUNK_LENGTH]
  exact ⟨h,
    (chunk_policy (fun xs => xs.map (fun _ => 0)) [[(1 : ℚ)]]
      (List.replicate 100 (some (1 : ℚ))) (fun xs => by simp)).2 h⟩

end FHMMSpec
